import Mathlib

/-!
Verification of the forecasting core of the Stock-AI-Prediction dashboard.

The development shallowly embeds the two source modules that the spec's
testable properties talk about:

* `utils/prediction.py` — `prepare_data` (the Feature Builder) and
  `predict_stock_price` (the Forecast Engine);
* `utils/stock_analysis.py` — `calculate_technical_indicators`
  (the Indicator Calculator).

Machine floats are modelled by exact rationals extended with the IEEE
special values `nan`, `inf` and `ninf` where pandas arithmetic can produce
them (the RSI pipeline); pure arithmetic pipelines (EWMs, scaling) are
modelled over plain `ℚ`.  A price history is a list of `(date, Close)`
pairs, a date being a day number with day `0` a Monday, so that Python's
`weekday() > 4` becomes `d % 7 > 4`.
-/

attribute [local semireducible] Rat.add Rat.sub Rat.mul Rat.inv

set_option maxRecDepth 10000

deriving instance DecidableEq for Except

namespace StockAI

/-- IEEE-754-style value: a rational together with the special values that
pandas/numpy float arithmetic produces (`NaN`, `+inf`, `-inf`). -/
inductive F where
  | nan : F
  | inf : F
  | ninf : F
  | val (q : ℚ) : F
deriving DecidableEq

/-- Float negation. -/
def Fneg : F → F
  | .nan => .nan
  | .inf => .ninf
  | .ninf => .inf
  | .val q => .val (-q)

/-- Float addition (NaN absorbs; opposite infinities give NaN). -/
def Fadd : F → F → F
  | .nan, _ => .nan
  | _, .nan => .nan
  | .inf, .ninf => .nan
  | .ninf, .inf => .nan
  | .inf, _ => .inf
  | _, .inf => .inf
  | .ninf, _ => .ninf
  | _, .ninf => .ninf
  | .val a, .val b => .val (a + b)

/-- Float subtraction. -/
def Fsub (a b : F) : F := Fadd a (Fneg b)

/-- Float division, including the IEEE zero-divisor behaviour that the RSI
computation relies on: `a/0 = ±inf` for `a ≠ 0` and `0/0 = NaN`. -/
def Fdiv : F → F → F
  | .nan, _ => .nan
  | _, .nan => .nan
  | .inf, .inf => .nan
  | .inf, .ninf => .nan
  | .ninf, .inf => .nan
  | .ninf, .ninf => .nan
  | .inf, .val b => if 0 ≤ b then .inf else .ninf
  | .ninf, .val b => if 0 ≤ b then .ninf else .inf
  | .val _, .inf => .val 0
  | .val _, .ninf => .val 0
  | .val a, .val b =>
      if b = 0 then (if 0 < a then .inf else if a < 0 then .ninf else .nan)
      else .val (a / b)

/-- Float `>` comparison; any comparison against NaN is false. -/
def Fgt : F → F → Bool
  | .nan, _ => false
  | _, .nan => false
  | .inf, .inf => false
  | .inf, _ => true
  | .ninf, _ => false
  | .val _, .inf => false
  | .val _, .ninf => true
  | .val a, .val b => decide (b < a)

/-- Float `<` comparison. -/
def Flt (a b : F) : Bool := Fgt b a

/-- Sum of a list of floats (NaN-propagating, as numpy's window sums are). -/
def Fsum (l : List F) : F := l.foldr Fadd (.val 0)

/-! ### `utils/stock_analysis.py` — `calculate_technical_indicators` -/

/-- Helper for `seriesDiff`: successive differences against a carried
previous value. -/
def diffGo (prev : ℚ) : List ℚ → List F
  | [] => []
  | x :: xs => .val (x - prev) :: diffGo x xs

/-- pandas `Series.diff()` — first entry `NaN`, then day-over-day deltas. -/
def seriesDiff : List ℚ → List F
  | [] => []
  | c :: rest => .nan :: diffGo c rest

/-- pandas `delta.where(delta > 0, 0)` — keep positive deltas, else 0
(NaN compares false, so it is replaced by 0). -/
def whereGt0 (d : F) : F := if Fgt d (.val 0) then d else .val 0

/-- pandas `delta.where(delta < 0, 0)` — keep negative deltas, else 0. -/
def whereLt0 (d : F) : F := if Flt d (.val 0) then d else .val 0

/-- pandas `rolling(window=w).mean()` over floats: positions with fewer
than `w` prior values are `NaN`, the rest the mean of the trailing
`w`-window. -/
def rollingMeanF (w : Nat) (l : List F) : List F :=
  (List.range l.length).map (fun i =>
    if i + 1 < w then F.nan
    else Fdiv (Fsum ((l.drop (i + 1 - w)).take w)) (F.val (w : ℚ)))

/-- Source line `gain = (delta.where(delta > 0, 0)).rolling(window=14).mean()`. -/
def gainSeries (close : List ℚ) : List F :=
  rollingMeanF 14 ((seriesDiff close).map whereGt0)

/-- Source line `loss = (-delta.where(delta < 0, 0)).rolling(window=14).mean()`. -/
def lossSeries (close : List ℚ) : List F :=
  rollingMeanF 14 ((seriesDiff close).map (fun d => Fneg (whereLt0 d)))

/-- Source line `rs = gain / loss` (elementwise float division). -/
def rsSeries (close : List ℚ) : List F :=
  List.zipWith Fdiv (gainSeries close) (lossSeries close)

/-- Source line `rsi = 100 - (100 / (1 + rs))`. -/
def rsiSeries (close : List ℚ) : List F :=
  (rsSeries close).map (fun r => Fsub (.val 100) (Fdiv (.val 100) (Fadd (.val 1) r)))

/-- Helper for `ewmMean`: the recurrence of pandas `ewm(adjust=False)`,
`e_t = (1 - alpha) * e_(t-1) + alpha * x_t`. -/
def ewmGo (a : ℚ) (e : ℚ) : List ℚ → List ℚ
  | [] => []
  | x :: xs => ((1 - a) * e + a * x) :: ewmGo a ((1 - a) * e + a * x) xs

/-- pandas `ewm(span=s, adjust=False).mean()` with `alpha = 2/(s+1)`;
the first output equals the first input. -/
def ewmMean (a : ℚ) : List ℚ → List ℚ
  | [] => []
  | x :: xs => x :: ewmGo a x xs

/-- Source: `macd = exp1 - exp2` with `exp1 = ewm(span=12)`,
`exp2 = ewm(span=26)`, so alphas `2/13` and `2/27`. -/
def macdSeries (close : List ℚ) : List ℚ :=
  List.zipWith (fun x y => x - y) (ewmMean (2/13) close) (ewmMean (2/27) close)

/-- Source: `signal_line = macd.ewm(span=9, adjust=False).mean()`, alpha `1/5`. -/
def signalSeries (close : List ℚ) : List ℚ := ewmMean (1/5) (macdSeries close)

/-- The scalar triple returned by `calculate_technical_indicators`. -/
structure Indicators where
  RSI : F
  MACD : ℚ
  Signal_Line : ℚ
deriving DecidableEq

/-- `calculate_technical_indicators(data)`: the latest (`iloc[-1]`) value of
each indicator series over the Close column.  `iloc[-1]` on an empty series
raises in pandas; the `getD` defaults stand for that unreachable case. -/
def calculate_technical_indicators (close : List ℚ) : Indicators :=
  { RSI := ((rsiSeries close).getLast?).getD .nan
  , MACD := ((macdSeries close).getLast?).getD 0
  , Signal_Line := ((signalSeries close).getLast?).getD 0 }

/-! ### `utils/prediction.py` — `prepare_data` -/

/-- pandas `rolling(window=w).mean()` over a clean numeric column, with
`None` standing for the leading `NaN`s. -/
def rollingMeanOpt (w : Nat) (l : List ℚ) : List (Option ℚ) :=
  (List.range l.length).map (fun i =>
    if i + 1 < w then none
    else some ((((l.drop (i + 1 - w)).take w).sum) / (w : ℚ)))

/-- Helper for `ffill`: forward fill with an explicit carried value. -/
def ffillGo (carry : Option ℚ) : List (Option ℚ) → List (Option ℚ)
  | [] => []
  | x :: xs =>
    match x with
    | some a => some a :: ffillGo (some a) xs
    | none => carry :: ffillGo carry xs

/-- pandas `ffill()` on one column. -/
def ffill (l : List (Option ℚ)) : List (Option ℚ) := ffillGo none l

/-- pandas `bfill()` on one column (a forward fill run backwards). -/
def bfill (l : List (Option ℚ)) : List (Option ℚ) := (ffillGo none l.reverse).reverse

/-- `np.min` over a column. -/
def listMin (l : List ℚ) : ℚ := l.foldl (fun a b => if b < a then b else a) (l.headD 0)

/-- `np.max` over a column. -/
def listMax (l : List ℚ) : ℚ := l.foldl (fun a b => if a < b then b else a) (l.headD 0)

/-- The per-column state sklearn's `MinMaxScaler` retains after `fit`. -/
structure Scaler where
  mins : List ℚ
  maxs : List ℚ
deriving DecidableEq

/-- sklearn `MinMaxScaler` column transform `(x - min) / (max - min)`;
a zero data range is replaced by 1 (sklearn's handle-zeros-in-scale). -/
def mmScale (m M x : ℚ) : ℚ := (x - m) / (if M - m = 0 then 1 else M - m)

/-- sklearn `MinMaxScaler.inverse_transform` on one column. -/
def mmInverse (m M y : ℚ) : ℚ := y * (if M - m = 0 then 1 else M - m) + m

/-- The error taxonomy of the Feature Builder / Forecast Engine.  In the
source all of these are `ValueError`s; `insufficientData` carries the
minimum required length that the message interpolates. -/
inductive DataError where
  | insufficientData (minRequired : Nat)
  | dataQuality
  | noValidData
deriving DecidableEq

/-- The Close column of a history (`data['Close']`). -/
def closesOf (rows : List (Nat × ℚ)) : List ℚ := rows.map Prod.snd

/-- The three derived feature columns `[Close, MA5, MA20]`. -/
def featureCols (close : List ℚ) : List (List (Option ℚ)) :=
  [close.map some, rollingMeanOpt 5 close, rollingMeanOpt 20 close]

/-- Source line `features = features.ffill().bfill()` (per column). -/
def filledCols (close : List ℚ) : List (List (Option ℚ)) :=
  (featureCols close).map (fun c => bfill (ffill c))

/-- Source line `features.isnull().any().any()` after filling. -/
def hasNull (close : List ℚ) : Bool :=
  (filledCols close).any (fun c => c.any (fun x => x.isNone))

/-- The filled feature columns as plain rationals (no null remains when
this is used). -/
def numericCols (close : List ℚ) : List (List ℚ) :=
  (filledCols close).map (fun c => c.map (fun x => x.getD 0))

/-- The scaler fitted once over the full derived feature set. -/
def scalerOf (close : List ℚ) : Scaler :=
  ⟨(numericCols close).map listMin, (numericCols close).map listMax⟩

/-- `scaler.fit_transform(features)`, column by column. -/
def scaledCols (close : List ℚ) : List (List ℚ) :=
  (numericCols close).map (fun c => c.map (mmScale (listMin c) (listMax c)))

/-- The scaled feature matrix in row-major order (`scaled_data[i]`). -/
def scaledRows (close : List ℚ) : List (List ℚ) :=
  (List.range close.length).map (fun i => (scaledCols close).map (fun c => c.getD i 0))

/-- The training windows `X`: for each `i` in `[lookback, n)` the slice
`scaled_data[i-lookback : i]`, indexed by `j = i - lookback`. -/
def mkX (close : List ℚ) (lookback : Nat) : List (List (List ℚ)) :=
  (List.range (close.length - lookback)).map
    (fun j => ((scaledRows close).drop j).take lookback)

/-- The targets `y`: the scaled Close `scaled_data[i, 0]` aligned with each
window of `mkX`. -/
def mky (close : List ℚ) (lookback : Nat) : List ℚ :=
  (List.range (close.length - lookback)).map
    (fun j => ((scaledRows close).getD (j + lookback) []).getD 0 0)

/-- `prepare_data(data, lookback)`: rejects absent or short histories with
the insufficient-data error naming `lookback`, builds and fills the three
feature columns, fits the min-max scaler once over the whole feature set,
and returns the windows, targets, scaler and column count. -/
def prepare_data (data : Option (List (Nat × ℚ))) (lookback : Nat) :
    Except DataError (List (List (List ℚ)) × List ℚ × Scaler × Nat) :=
  match data with
  | none => .error (.insufficientData lookback)
  | some rows =>
    if rows.length < lookback then .error (.insufficientData lookback)
    else if hasNull (closesOf rows) = true then .error .dataQuality
    else .ok (mkX (closesOf rows) lookback, mky (closesOf rows) lookback,
              scalerOf (closesOf rows), (featureCols (closesOf rows)).length)

/-! ### `utils/prediction.py` — `predict_stock_price` -/

/-- Helper for `skipWeekend`: the loop body with explicit fuel.  Weekdays
repeat with period 7 and at most two consecutive days are weekend days, so
any fuel of at least 2 makes the fueled loop agree with the unbounded
`while` loop of the source. -/
def skipWeekendFuel : Nat → Nat → Nat
  | 0, d => d
  | fuel + 1, d => if d % 7 > 4 then skipWeekendFuel fuel (d + 1) else d

/-- The while loop `while current_date.weekday() > 4: current_date += 1`
that pushes a date off the weekend. -/
def skipWeekend (d : Nat) : Nat := skipWeekendFuel 7 d

/-- The per-iteration window update of the rollout, exactly as the source
performs it: `np.roll(last_sequence, -1, axis=0)` followed by the
broadcasting assignment `last_sequence[-1] = scaled_pred` (a scalar
assigned to a whole row).  The empty case is unreachable in
`predict_stock_price` (windows have `lookback` rows). -/
def updateSequence (seq : List (List ℚ)) (p : ℚ) : List (List ℚ) :=
  (seq.drop 1 ++ seq.take 1).dropLast ++
    [(((seq.drop 1 ++ seq.take 1).getLast?).getD []).map (fun _ => p)]

/-- The inverse-scaling of one prediction: a zero row of `ncols` entries
with the prediction in column 0, run through `inverse_transform`, then
entry `[0, 0]` is read off. -/
def inversePred (sc : Scaler) (ncols : Nat) (p : ℚ) : ℚ :=
  let row := (List.range ncols).map (fun j => if j = 0 then p else 0)
  let inv := (List.range ncols).map
    (fun j => mmInverse (sc.mins.getD j 0) (sc.maxs.getD j 0) (row.getD j 0))
  inv.getD 0 0

/-- The 7-iteration recursive rollout: each step advances the date past any
weekend, predicts on the flattened current window, inverse-transforms the
prediction, and rebuilds the window with `updateSequence`.  Returns the
future dates and the inverse-transformed predictions, in order. -/
def rolloutAux (model : List ℚ → ℚ) (sc : Scaler) (ncols : Nat) :
    Nat → Nat → List (List ℚ) → List Nat × List ℚ
  | 0, _, _ => ([], [])
  | k + 1, cur, seq =>
    let d := skipWeekend (cur + 1)
    let p := model seq.flatten
    let actual := inversePred sc ncols p
    let rest := rolloutAux model sc ncols k d (updateSequence seq p)
    (d :: rest.1, actual :: rest.2)

/-- The sequence of future dates the rollout visits: each is the next
business day strictly after the previous one (the dates of `rolloutAux`,
which do not depend on the model or the windows). -/
def futureDates : Nat → Nat → List Nat
  | 0, _ => []
  | k + 1, cur => skipWeekend (cur + 1) :: futureDates k (skipWeekend (cur + 1))

/-- Modelled from the spec: sklearn draws its randomness from the passed
`random_state` when one is given and from ambient process entropy
otherwise; the source always passes `random_state=42`. -/
def resolveSeed (random_state : Option Nat) (entropy : Nat) : Nat :=
  random_state.getD entropy

/-- The type of an abstract ensemble trainer standing for sklearn's
`RandomForestRegressor`: tree count and seed, then the flattened training
windows and targets, producing a regression function.  Modelled from the
spec: the regressor itself is an external collaborator of the core and is
deterministic given its seed. -/
def RFTrainer : Type :=
  Nat → Nat → List (List ℚ) → List ℚ → (List ℚ → ℚ)

/-- `predict_stock_price(data)`: prepares the data (any failure is caught
and becomes the empty result), rejects an empty training set, trains the
100-tree seed-42 regressor, and runs the 7-step rollout from the last
window and the last historical date; the result pairs each future date
with its predicted price. -/
def predict_stock_price (fitRF : RFTrainer) (entropy : Nat)
    (data : Option (List (Nat × ℚ))) : List (Nat × ℚ) :=
  match prepare_data data 30 with
  | .error _ => []
  | .ok (X, y, sc, ncols) =>
    if X.length = 0 then []
    else
      let model := fitRF 100 (resolveSeed (some 42) entropy) (X.map List.flatten) y
      let lastSeq := X.getLast?.getD []
      let lastDate := ((data.getD []).map Prod.fst).getLast?.getD 0
      let r := rolloutAux model sc ncols 7 lastDate lastSeq
      r.1.zip r.2

/-! ### Spec-side definition for the rollout window update -/

/-- The window update as the specification words it: drop the oldest row
and append a synthetic row whose Close entry (column 0) is the new scaled
prediction, the moving-average columns carrying forward the shifted-in
row's trailing-average values unchanged. -/
def specUpdateSequence (seq : List (List ℚ)) (p : ℚ) : List (List ℚ) :=
  seq.drop 1 ++ [match seq.head? with
    | none => []
    | some r => p :: r.drop 1]

/-! ### Concrete inputs used by witnesses and counterexamples -/

/-- A valid 30-business-day history with constant Close 5: dates are
strictly increasing weekdays (day 0 is a Monday). -/
def h30 : List (Nat × ℚ) := (List.range 30).map (fun i => (7 * (i / 5) + i % 5, (5 : ℚ)))

/-- A valid 31-business-day history with constant Close 5. -/
def h31 : List (Nat × ℚ) := (List.range 31).map (fun i => (7 * (i / 5) + i % 5, (5 : ℚ)))

/-- A trivial concrete trainer (constant-zero regressor) used to
instantiate the abstract ensemble trainer in witnesses. -/
def constFit : RFTrainer := fun _ _ _ _ _ => 0

/-- A strictly increasing 14-day Close series. -/
def inc14 : List ℚ := [1, 2, 3, 4, 5, 6, 7, 8, 9, 10, 11, 12, 13, 14]

/-- Executable strict-increase check for a list of dates, used to evaluate
chain properties on concrete histories. -/
def chainLtB : List Nat → Bool
  | [] => true
  | [_] => true
  | a :: b :: l => decide (a < b) && chainLtB (b :: l)

/-! ## Library lemmas about the filling helpers -/

theorem ffillGo_length (c : Option ℚ) (l : List (Option ℚ)) :
    (ffillGo c l).length = l.length := by
  induction l generalizing c with
  | nil => rfl
  | cons x xs ih => cases x <;> simp [ffillGo, ih]

theorem ffillGo_isSome_of_all (l : List (Option ℚ)) (c : Option ℚ)
    (hall : ∀ x ∈ l, x.isSome) : ∀ y ∈ ffillGo c l, y.isSome := by
  induction l generalizing c with
  | nil => simp [ffillGo]
  | cons x xs ih =>
    obtain ⟨a, rfl⟩ := Option.isSome_iff_exists.mp (hall x (List.mem_cons_self x xs))
    intro y hy
    rw [ffillGo] at hy
    rcases List.mem_cons.mp hy with rfl | hy2
    · rfl
    · exact ih (some a) (fun z hz => hall z (List.mem_cons_of_mem _ hz)) y hy2

theorem ffillGo_isSome_of_carry (l : List (Option ℚ)) (v : ℚ) :
    ∀ y ∈ ffillGo (some v) l, y.isSome := by
  induction l generalizing v with
  | nil => simp [ffillGo]
  | cons x xs ih =>
    intro y hy
    cases x with
    | none =>
      rw [ffillGo] at hy
      rcases List.mem_cons.mp hy with rfl | hy2
      · rfl
      · exact ih v y hy2
    | some a =>
      rw [ffillGo] at hy
      rcases List.mem_cons.mp hy with rfl | hy2
      · rfl
      · exact ih a y hy2

theorem ffillGo_id_of_all (l : List (Option ℚ)) (c : Option ℚ)
    (hall : ∀ x ∈ l, x.isSome) : ffillGo c l = l := by
  induction l generalizing c with
  | nil => rfl
  | cons x xs ih =>
    obtain ⟨a, rfl⟩ := Option.isSome_iff_exists.mp (hall x (List.mem_cons_self x xs))
    rw [ffillGo, ih (some a) (fun z hz => hall z (List.mem_cons_of_mem _ hz))]

theorem ffillGo_replicate_none (k : Nat) (rest : List (Option ℚ)) :
    ffillGo none (List.replicate k none ++ rest) =
      List.replicate k none ++ ffillGo none rest := by
  induction k with
  | zero => simp
  | succ k ih => simp [List.replicate_succ, ffillGo, ih]

theorem bfill_ffill_isSome (col : List (Option ℚ)) (k : Nat)
    (rest : List (Option ℚ)) (hcol : col = List.replicate k none ++ rest)
    (hne : rest ≠ []) (hall : ∀ x ∈ rest, x.isSome) :
    ∀ y ∈ bfill (ffill col), y.isSome := by
  subst hcol
  unfold ffill bfill
  rw [ffillGo_replicate_none]
  have hs_all : ∀ y ∈ ffillGo none rest, y.isSome :=
    ffillGo_isSome_of_all rest none hall
  have hs_ne : ffillGo none rest ≠ [] := by
    intro h
    have hlen := ffillGo_length none rest
    rw [h] at hlen
    exact hne (List.eq_nil_of_length_eq_zero hlen.symm)
  rw [List.reverse_append, List.reverse_replicate]
  have hrne : (ffillGo none rest).reverse ≠ [] := by simpa using hs_ne
  obtain ⟨a, t, hat⟩ := List.exists_cons_of_ne_nil hrne
  rw [hat]
  have ha : a.isSome := by
    apply hs_all
    rw [← List.mem_reverse, hat]
    exact List.mem_cons_self a t
  obtain ⟨v, rfl⟩ := Option.isSome_iff_exists.mp ha
  intro y hy
  rw [List.mem_reverse, List.cons_append, ffillGo] at hy
  rcases List.mem_cons.mp hy with rfl | hy2
  · rfl
  · exact ffillGo_isSome_of_carry _ v y hy2

theorem rollingMeanOpt_shape (w : Nat) (l : List ℚ) (hw : 1 ≤ w)
    (hl : w ≤ l.length) :
    ∃ rest, rollingMeanOpt w l = List.replicate (w - 1) none ++ rest ∧
      rest ≠ [] ∧ ∀ x ∈ rest, x.isSome := by
  have hsplit : l.length = (w - 1) + (l.length - (w - 1)) := by omega
  unfold rollingMeanOpt
  rw [hsplit, List.range_add, List.map_append]
  have h1 : (List.range (w - 1)).map
      (fun i => if i + 1 < w then (none : Option ℚ)
        else some ((((l.drop (i + 1 - w)).take w).sum) / (w : ℚ))) =
      List.replicate (w - 1) none := by
    apply List.eq_replicate_iff.2
    refine ⟨by simp, ?_⟩
    intro b hb
    obtain ⟨i, hi, rfl⟩ := List.mem_map.mp hb
    have : i < w - 1 := List.mem_range.mp hi
    rw [if_pos (by omega)]
  rw [h1]
  refine ⟨_, rfl, ?_, ?_⟩
  · apply List.ne_nil_of_length_pos
    simp only [List.length_map, List.length_map, List.length_range]
    omega
  · intro x hx
    obtain ⟨j, hj, rfl⟩ := List.mem_map.mp hx
    obtain ⟨i, hi, rfl⟩ := List.mem_map.mp hj
    rw [if_neg (by omega)]
    rfl

theorem bfill_ffill_map_some (l : List ℚ) :
    bfill (ffill (l.map some)) = l.map some := by
  have hall : ∀ x ∈ l.map some, x.isSome := by simp
  unfold ffill bfill
  rw [ffillGo_id_of_all _ _ hall]
  rw [ffillGo_id_of_all _ _ (by intro x hx; exact hall x (List.mem_reverse.mp hx))]
  exact List.reverse_reverse _

theorem hasNull_false (close : List ℚ) (h : 20 ≤ close.length) :
    hasNull close = false := by
  unfold hasNull filledCols featureCols
  simp only [List.map_cons, List.map_nil, List.any_cons, List.any_nil,
    Bool.or_eq_false_iff]
  refine ⟨?_, ?_, ?_, trivial⟩
  · rw [bfill_ffill_map_some, List.any_eq_false]
    intro x hx
    obtain ⟨a, _, rfl⟩ := List.mem_map.mp hx
    simp
  · obtain ⟨rest, hshape, hne, hall⟩ := rollingMeanOpt_shape 5 close (by omega) (by omega)
    rw [List.any_eq_false]
    intro x hx
    have hsome := bfill_ffill_isSome _ _ _ hshape hne hall x hx
    obtain ⟨v, rfl⟩ := Option.isSome_iff_exists.mp hsome
    simp
  · obtain ⟨rest, hshape, hne, hall⟩ := rollingMeanOpt_shape 20 close (by omega) (by omega)
    rw [List.any_eq_false]
    intro x hx
    have hsome := bfill_ffill_isSome _ _ _ hshape hne hall x hx
    obtain ⟨v, rfl⟩ := Option.isSome_iff_exists.mp hsome
    simp

theorem prepare_data_ok (rows : List (Nat × ℚ)) (h : 30 ≤ rows.length) :
    prepare_data (some rows) 30 =
      .ok (mkX (closesOf rows) 30, mky (closesOf rows) 30,
           scalerOf (closesOf rows), 3) := by
  have hlen : (closesOf rows).length = rows.length := by simp [closesOf]
  have h1 : ¬ rows.length < 30 := by omega
  have h2 : hasNull (closesOf rows) = false := hasNull_false _ (by omega)
  simp [prepare_data, h1, h2, featureCols]

/-! ## Lemmas about EWMs of constant series -/

theorem ewmGo_const (a c : ℚ) (k : Nat) :
    ewmGo a c (List.replicate k c) = List.replicate k c := by
  induction k with
  | zero => rfl
  | succ k ih =>
    rw [List.replicate_succ]
    simp only [ewmGo]
    have hc : (1 - a) * c + a * c = c := by ring
    rw [hc, ih]

theorem ewmMean_const (a c : ℚ) (n : Nat) :
    ewmMean a (List.replicate n c) = List.replicate n c := by
  cases n with
  | zero => rfl
  | succ k =>
    rw [List.replicate_succ]
    simp only [ewmMean]
    rw [ewmGo_const]

theorem zipWith_sub_replicate (n : Nat) (c : ℚ) :
    List.zipWith (fun x y => x - y) (List.replicate n c) (List.replicate n c) =
      List.replicate n 0 := by
  induction n with
  | zero => rfl
  | succ k ih => simp only [List.replicate_succ, List.zipWith_cons_cons, ih, sub_self]

theorem getLast?_replicate_pos {α : Type} (n : Nat) (x : α) (h : 1 ≤ n) :
    (List.replicate n x).getLast? = some x := by
  cases n with
  | zero => omega
  | succ k => rw [List.replicate_succ', List.getLast?_concat]

theorem chainLtB_iff (l : List Nat) :
    chainLtB l = true ↔ List.Chain' (· < ·) l := by
  induction l with
  | nil => simp [chainLtB]
  | cons a l ih =>
    cases l with
    | nil => simp [chainLtB]
    | cons b t => simp [chainLtB, List.chain'_cons, ih]

/-! ## Claim theorems for the Indicator Calculator (MACD side) -/

/-- Claim C9: for every nonempty constant Close series, the Indicator
Calculator returns MACD = 0 and Signal Line = 0 (each EWM of a constant
series is that constant, so their difference is identically zero and the
EWM of that zero series is zero). -/
theorem macd_signal_zero_of_constant (c : ℚ) (n : Nat) (hn : 1 ≤ n) :
    (calculate_technical_indicators (List.replicate n c)).MACD = 0 ∧
    (calculate_technical_indicators (List.replicate n c)).Signal_Line = 0 := by
  have hm : macdSeries (List.replicate n c) = List.replicate n 0 := by
    unfold macdSeries
    rw [ewmMean_const, ewmMean_const, zipWith_sub_replicate]
  have hs : signalSeries (List.replicate n c) = List.replicate n 0 := by
    unfold signalSeries
    rw [hm, ewmMean_const]
  constructor <;>
    simp [calculate_technical_indicators, hm, hs, getLast?_replicate_pos n (0 : ℚ) hn]

/-- Witness for C9, at the concrete constant series `[7, 7]`. -/
theorem macd_signal_zero_of_constant_witness :
    1 ≤ 2 ∧
    ((calculate_technical_indicators (List.replicate 2 (7 : ℚ))).MACD = 0 ∧
     (calculate_technical_indicators (List.replicate 2 (7 : ℚ))).Signal_Line = 0) :=
  ⟨by decide, macd_signal_zero_of_constant 7 2 (by decide)⟩

/-! ## Claim theorems for min-max scaling -/

theorem mm_roundtrip_general (m M x : ℚ) : mmInverse m M (mmScale m M x) = x := by
  unfold mmScale mmInverse
  split_ifs with h
  · ring
  · field_simp

/-- Claim C8: for every feature column, the fitted min-max transform
followed by the retained inverse transform is the identity (exactly, over
the rationals; the fitted state is the column's min and max, with a zero
range replaced by 1 so no division by zero occurs). -/
theorem minmax_roundtrip (col : List ℚ) (x : ℚ) :
    mmInverse (listMin col) (listMax col) (mmScale (listMin col) (listMax col) x) = x :=
  mm_roundtrip_general (listMin col) (listMax col) x

/-! ## Claim theorems for the Forecast Engine: determinism and failure path -/

/-- Claim C6: the forecast is deterministic.  The engine trains with the
fixed seed `random_state = 42` and 100 trees, so the resolved seed ignores
the ambient process entropy and two calls on identical input histories
produce identical output sequences whatever entropy each run carries. -/
theorem forecast_deterministic (fitRF : RFTrainer) (e1 e2 : Nat)
    (data : Option (List (Nat × ℚ))) :
    predict_stock_price fitRF e1 data = predict_stock_price fitRF e2 data := rfl

/-- Claim C2: for an absent history or any history of fewer than 30 rows
(including a 1-row history), the Feature Builder fails with the
insufficient-data error naming the minimum length 30, the engine catches
that failure, and `predict_stock_price` returns the empty result (it is a
total function, so it never raises to its caller). -/
theorem forecast_short_history_empty (fitRF : RFTrainer) (entropy : Nat)
    (data : Option (List (Nat × ℚ)))
    (h : data = none ∨ ∃ rows, data = some rows ∧ rows.length < 30) :
    predict_stock_price fitRF entropy data = [] ∧
    prepare_data data 30 = .error (.insufficientData 30) := by
  have hp : prepare_data data 30 = .error (.insufficientData 30) := by
    rcases h with rfl | ⟨rows, rfl, hlen⟩
    · rfl
    · simp [prepare_data, hlen]
  refine ⟨?_, hp⟩
  simp [predict_stock_price, hp]

/-- Witness for C2, at the concrete 1-row history `[(0, 5)]`. -/
theorem forecast_short_history_empty_witness :
    ((some [((0 : Nat), (5 : ℚ))] = none ∨
      ∃ rows, some [((0 : Nat), (5 : ℚ))] = some rows ∧ rows.length < 30)) ∧
    (predict_stock_price constFit 0 (some [((0 : Nat), (5 : ℚ))]) = [] ∧
     prepare_data (some [((0 : Nat), (5 : ℚ))]) 30 = .error (.insufficientData 30)) :=
  ⟨Or.inr ⟨_, rfl, by decide⟩,
   forecast_short_history_empty constFit 0 _ (Or.inr ⟨_, rfl, by decide⟩)⟩

/-! ## Claim theorems for the rollout window update -/

/-- Counterexample to claim C3: the broadcasting assignment
`last_sequence[-1] = scaled_pred` writes the scaled prediction into all
three columns of the appended row, not only the Close column.  On the
concrete 2-row window `[[0,1,2],[3,4,5]]` with prediction 9, the source's
update appends `[9,9,9]`, while the claim's construction (only column 0
set, moving-average columns carried by the shift) appends `[9,1,2]`. -/
theorem updateSequence_counterexample :
    updateSequence [[0, 1, 2], [3, 4, 5]] 9 = [[3, 4, 5], [9, 9, 9]] ∧
    specUpdateSequence [[0, 1, 2], [3, 4, 5]] 9 = [[3, 4, 5], [9, 1, 2]] ∧
    updateSequence [[0, 1, 2], [3, 4, 5]] 9 ≠
      specUpdateSequence [[0, 1, 2], [3, 4, 5]] 9 :=
  ⟨by decide, by decide, by decide⟩

/-- Claim C3 (amended): in every iteration of the rollout the next window
drops the oldest row and appends a synthetic row all three of whose columns
(Close, MA5 and MA20 alike) are set to the new scaled prediction, because
the scalar assignment to the rolled window's last row broadcasts. -/
theorem updateSequence_broadcasts (seq : List (List ℚ)) (p : ℚ)
    (hne : seq ≠ []) (h3 : ∀ r ∈ seq, r.length = 3) :
    updateSequence seq p = seq.drop 1 ++ [[p, p, p]] := by
  cases seq with
  | nil => exact absurd rfl hne
  | cons x xs =>
    have hx : x.length = 3 := h3 x (List.mem_cons_self x xs)
    have hroll : (x :: xs).drop 1 ++ (x :: xs).take 1 = xs ++ [x] := rfl
    unfold updateSequence
    rw [hroll, List.dropLast_concat, List.getLast?_concat]
    have hmap : x.map (fun _ => p) = List.replicate x.length p := by
      rw [List.map_const']
    simp only [Option.getD_some, hmap, hx]
    rfl

/-- Witness for the amended C3, at a concrete 1-row window. -/
theorem updateSequence_broadcasts_witness :
    ([[(1 : ℚ), 2, 3]] ≠ []) ∧ (∀ r ∈ [[(1 : ℚ), 2, 3]], r.length = 3) ∧
    updateSequence [[(1 : ℚ), 2, 3]] 5 = [[(1 : ℚ), 2, 3]].drop 1 ++ [[5, 5, 5]] :=
  ⟨by decide, by decide,
   updateSequence_broadcasts [[(1 : ℚ), 2, 3]] 5 (by decide) (by decide)⟩

/-! ## Claim theorems for the Feature Builder acceptance bound -/

/-- Counterexample to claim C4: a valid 30-row history has only 11 rows
left after removing the 19 leading rows that cannot support the 20-day
moving average, so the claim predicts the insufficient-data failure; the
source instead checks the raw length only and accepts the history. -/
theorem prepare_accepts_30_rows :
    prepare_data (some h30) 30 =
      .ok (mkX (closesOf h30) 30, mky (closesOf h30) 30, scalerOf (closesOf h30), 3) ∧
    h30.length = 30 ∧ h30.length - 19 < 30 :=
  ⟨prepare_data_ok h30 (by decide), by decide, by decide⟩

/-- Claim C4 (amended): the Feature Builder fails with the
insufficient-data error naming the minimum required length 30 exactly for
absent histories and histories whose raw row count is below 30; no leading
rows are removed (the undefined leading moving-average entries are
forward/backward-filled instead), and every history with at least 30 raw
rows is accepted. -/
theorem prepare_insufficient_iff (data : Option (List (Nat × ℚ))) :
    prepare_data data 30 = .error (.insufficientData 30) ↔
      data = none ∨ ∃ rows, data = some rows ∧ rows.length < 30 := by
  cases data with
  | none => simp [prepare_data]
  | some rows =>
    by_cases h : rows.length < 30
    · simp [prepare_data, h]
    · rw [prepare_data_ok rows (by omega)]
      simp [h]

/-! ## Lemmas about the rollout calendar -/

theorem skipWeekend_eq (d : Nat) :
    skipWeekend d = if d % 7 = 5 then d + 2 else if d % 7 = 6 then d + 1 else d := by
  unfold skipWeekend
  by_cases h5 : d % 7 = 5
  · have h1 : (d + 1) % 7 = 6 := by omega
    have h2 : (d + 2) % 7 = 0 := by omega
    simp [skipWeekendFuel, h5, h1, h2]
  · by_cases h6 : d % 7 = 6
    · have h1 : (d + 1) % 7 = 0 := by omega
      simp [skipWeekendFuel, h6, h1]
    · have h0 : ¬ d % 7 > 4 := by omega
      simp [skipWeekendFuel, h0, h5, h6]

theorem skipWeekend_ge (d : Nat) : d ≤ skipWeekend d := by
  rw [skipWeekend_eq]
  split_ifs <;> omega

theorem skipWeekend_mod (d : Nat) : skipWeekend d % 7 ≤ 4 := by
  rw [skipWeekend_eq]
  split_ifs with h1 h2 <;> omega

theorem futureDates_length (k cur : Nat) : (futureDates k cur).length = k := by
  induction k generalizing cur with
  | zero => rfl
  | succ k ih => simp [futureDates, ih]

theorem futureDates_chain (k cur : Nat) :
    List.Chain' (· < ·) (cur :: futureDates k cur) := by
  induction k generalizing cur with
  | zero => simp [futureDates]
  | succ k ih =>
    simp only [futureDates]
    rw [List.chain'_cons]
    exact ⟨lt_of_lt_of_le (Nat.lt_succ_self cur) (skipWeekend_ge (cur + 1)), ih _⟩

theorem futureDates_mod (k cur : Nat) : ∀ d ∈ futureDates k cur, d % 7 ≤ 4 := by
  induction k generalizing cur with
  | zero => simp [futureDates]
  | succ k ih =>
    intro d hd
    simp only [futureDates, List.mem_cons] at hd
    rcases hd with rfl | hd2
    · exact skipWeekend_mod _
    · exact ih _ d hd2

theorem rolloutAux_fst (model : List ℚ → ℚ) (sc : Scaler) (ncols : Nat)
    (k cur : Nat) (seq : List (List ℚ)) :
    (rolloutAux model sc ncols k cur seq).1 = futureDates k cur := by
  induction k generalizing cur seq with
  | zero => rfl
  | succ k ih => simp only [rolloutAux, futureDates, ih]

theorem rolloutAux_snd_length (model : List ℚ → ℚ) (sc : Scaler) (ncols : Nat)
    (k cur : Nat) (seq : List (List ℚ)) :
    (rolloutAux model sc ncols k cur seq).2.length = k := by
  induction k generalizing cur seq with
  | zero => rfl
  | succ k ih => simp only [rolloutAux, List.length_cons, ih]

theorem rollout_zip_props (model : List ℚ → ℚ) (sc : Scaler) (ncols cur : Nat)
    (seq : List (List ℚ)) :
    ((rolloutAux model sc ncols 7 cur seq).1.zip
      (rolloutAux model sc ncols 7 cur seq).2).length = 7 ∧
    List.Chain' (· < ·) (((rolloutAux model sc ncols 7 cur seq).1.zip
      (rolloutAux model sc ncols 7 cur seq).2).map Prod.fst) ∧
    ∀ d ∈ ((rolloutAux model sc ncols 7 cur seq).1.zip
      (rolloutAux model sc ncols 7 cur seq).2).map Prod.fst, d % 7 ≤ 4 := by
  have h1 : (rolloutAux model sc ncols 7 cur seq).1 = futureDates 7 cur :=
    rolloutAux_fst model sc ncols 7 cur seq
  have hl1 : (rolloutAux model sc ncols 7 cur seq).1.length = 7 := by
    rw [h1, futureDates_length]
  have hl2 : (rolloutAux model sc ncols 7 cur seq).2.length = 7 :=
    rolloutAux_snd_length model sc ncols 7 cur seq
  have hmapfst : ((rolloutAux model sc ncols 7 cur seq).1.zip
      (rolloutAux model sc ncols 7 cur seq).2).map Prod.fst =
      (rolloutAux model sc ncols 7 cur seq).1 :=
    List.map_fst_zip _ _ (by omega)
  refine ⟨?_, ?_, ?_⟩
  · rw [List.length_zip, hl1, hl2]
    simp
  · rw [hmapfst, h1]
    exact (futureDates_chain 7 cur).tail
  · rw [hmapfst, h1]
    exact futureDates_mod 7 cur

/-! ## Claim theorems for the Forecast Engine output shape -/

/-- Counterexample to claim C1: `h30` is a valid price history (strictly
increasing business-day dates, non-negative prices) with exactly 30 rows,
yet the forecast is empty (0 rows, not 7): a 30-row history yields an
empty training set, the engine raises internally and degrades to the
empty result. -/
theorem forecast_30_rows_counterexample :
    h30.length = 30 ∧
    List.Chain' (· < ·) (h30.map Prod.fst) ∧
    (∀ d ∈ h30.map Prod.fst, d % 7 ≤ 4) ∧
    predict_stock_price constFit 0 (some h30) = [] :=
  ⟨by decide, (chainLtB_iff _).mp (by decide), by decide, by decide⟩

/-- Claim C1 (amended): for every history with at least 31 rows (31, not
30: a 30-row history produces an empty training set and an empty result),
the forecast returns exactly 7 rows, its dates are strictly increasing,
and no returned date falls on a weekend. -/
theorem forecast_seven_business_days (fitRF : RFTrainer) (entropy : Nat)
    (h : List (Nat × ℚ)) (hl : 31 ≤ h.length) :
    (predict_stock_price fitRF entropy (some h)).length = 7 ∧
    List.Chain' (· < ·) ((predict_stock_price fitRF entropy (some h)).map Prod.fst) ∧
    (∀ d ∈ (predict_stock_price fitRF entropy (some h)).map Prod.fst, d % 7 ≤ 4) := by
  have hok := prepare_data_ok h (by omega)
  have hXlen : (mkX (closesOf h) 30).length = h.length - 30 := by
    simp [mkX, closesOf]
  have hXne : ¬ (mkX (closesOf h) 30).length = 0 := by omega
  simp only [predict_stock_price, hok, if_neg hXne]
  exact rollout_zip_props _ _ _ _ _

/-- Witness for the amended C1 at the concrete 31-row history `h31`. -/
theorem forecast_seven_business_days_witness :
    31 ≤ h31.length ∧
    ((predict_stock_price constFit 0 (some h31)).length = 7 ∧
     List.Chain' (· < ·) ((predict_stock_price constFit 0 (some h31)).map Prod.fst) ∧
     (∀ d ∈ (predict_stock_price constFit 0 (some h31)).map Prod.fst, d % 7 ≤ 4)) :=
  ⟨by decide, forecast_seven_business_days constFit 0 h31 (by decide)⟩

/-! ## Claim theorems for the Feature Builder output sizes -/

/-- Claim C10: whenever `prepare_data` returns normally, `X` and `y` have
the same number of rows, namely the history length minus the lookback 30;
a history of exactly 30 rows yields empty `X` and `y`, and a non-empty
training set forces at least 31 rows. -/
theorem training_set_sizes (h : List (Nat × ℚ)) (X : List (List (List ℚ)))
    (y : List ℚ) (sc : Scaler) (nc : Nat)
    (hok : prepare_data (some h) 30 = .ok (X, y, sc, nc)) :
    X.length = y.length ∧ X.length = h.length - 30 ∧
    (h.length = 30 → X = [] ∧ y = []) ∧ (X ≠ [] → 31 ≤ h.length) := by
  by_cases hlen : h.length < 30
  · rw [show prepare_data (some h) 30 = .error (.insufficientData 30) by
      simp [prepare_data, hlen]] at hok
    exact absurd hok (by simp)
  · rw [prepare_data_ok h (by omega)] at hok
    simp only [Except.ok.injEq, Prod.mk.injEq] at hok
    obtain ⟨rfl, rfl, rfl, rfl⟩ := hok
    refine ⟨by simp [mkX, mky], by simp [mkX, closesOf], ?_, ?_⟩
    · intro h30eq
      constructor <;> simp [mkX, mky, closesOf, h30eq]
    · intro hne
      have hpos : (mkX (closesOf h) 30).length ≠ 0 := by
        intro h0
        exact hne (List.eq_nil_of_length_eq_zero h0)
      simp only [mkX, closesOf, List.length_map, List.length_range] at hpos
      omega

/-- Witness for C10 at the concrete 31-row history `h31`. -/
theorem training_set_sizes_witness :
    (prepare_data (some h31) 30 =
      .ok (mkX (closesOf h31) 30, mky (closesOf h31) 30, scalerOf (closesOf h31), 3)) ∧
    ((mkX (closesOf h31) 30).length = (mky (closesOf h31) 30).length ∧
     (mkX (closesOf h31) 30).length = h31.length - 30 ∧
     (h31.length = 30 → mkX (closesOf h31) 30 = [] ∧ mky (closesOf h31) 30 = []) ∧
     (mkX (closesOf h31) 30 ≠ [] → 31 ≤ h31.length)) :=
  ⟨prepare_data_ok h31 (by decide),
   training_set_sizes h31 _ _ _ _ (prepare_data_ok h31 (by decide))⟩

/-! ## Lemmas about the scaled feature matrix -/

theorem getD_getElem? {α : Type} (l : List α) (j : Nat) (d : α) :
    l.getD j d = (l[j]?).getD d := by
  rw [List.getD_eq_getD_get?, List.get?_eq_getElem?]

theorem numericCols_explicit (close : List ℚ) :
    numericCols close =
      [close,
       (bfill (ffill (rollingMeanOpt 5 close))).map (fun x => x.getD 0),
       (bfill (ffill (rollingMeanOpt 20 close))).map (fun x => x.getD 0)] := by
  unfold numericCols filledCols featureCols
  simp [bfill_ffill_map_some, List.map_map, Function.comp_def]

theorem scaledCols_head (close : List ℚ) :
    ∃ c2 c3, scaledCols close =
      [close.map (mmScale (listMin close) (listMax close)), c2, c3] := by
  unfold scaledCols
  rw [numericCols_explicit]
  exact ⟨_, _, rfl⟩

theorem scaledCols_length (close : List ℚ) : (scaledCols close).length = 3 := by
  obtain ⟨c2, c3, h⟩ := scaledCols_head close
  rw [h]
  rfl

theorem scaledRows_length (close : List ℚ) :
    (scaledRows close).length = close.length := by
  simp [scaledRows]

theorem scaledRows_getElem? (close : List ℚ) (i : Nat) (hi : i < close.length) :
    (scaledRows close)[i]? = some ((scaledCols close).map (fun c => c.getD i 0)) := by
  unfold scaledRows
  simp [List.getElem?_map, List.getElem?_range, hi]

theorem scaledRows_rows3 (close : List ℚ) :
    ∀ r ∈ scaledRows close, r.length = 3 := by
  intro r hr
  unfold scaledRows at hr
  obtain ⟨i, hi, rfl⟩ := List.mem_map.mp hr
  rw [List.length_map, scaledCols_length]

theorem scaledRows_col0 (close : List ℚ) (i : Nat) (hi : i < close.length) :
    ((scaledRows close).getD i []).getD 0 0 =
      mmScale (listMin close) (listMax close) (close.getD i 0) := by
  rw [getD_getElem? _ i, scaledRows_getElem? close i hi, Option.getD_some]
  obtain ⟨c2, c3, hc⟩ := scaledCols_head close
  rw [hc]
  simp only [List.map_cons]
  rw [List.getD_cons_zero]
  obtain ⟨a, ha⟩ : ∃ a, close[i]? = some a := by
    rw [List.getElem?_eq_getElem hi]
    exact ⟨_, rfl⟩
  rw [getD_getElem?, getD_getElem?, List.getElem?_map, ha]
  rfl

theorem mkX_getElem? (close : List ℚ) (lookback j : Nat)
    (hj : j < close.length - lookback) :
    (mkX close lookback)[j]? = some (((scaledRows close).drop j).take lookback) := by
  unfold mkX
  simp [List.getElem?_map, List.getElem?_range, hj]

theorem mky_getElem? (close : List ℚ) (lookback j : Nat)
    (hj : j < close.length - lookback) :
    (mky close lookback)[j]? =
      some (((scaledRows close).getD (j + lookback) []).getD 0 0) := by
  unfold mky
  simp [List.getElem?_map, List.getElem?_range, hj]

/-! ## Claim theorem for the Feature Builder window structure -/

/-- Claim C7: every history of at least 30 rows is accepted, and for each
index `i` from the lookback 30 to the end of the series, window
`j = i - 30` of `X` is the slice `[j, j + 30)` of the scaled feature rows
(shape 30 × 3, chronological order, no shuffling), while `y` at the same
position is the scaled Close at index `i`; the scale applied everywhere is
the min-max transform fitted once over the full derived feature columns
(for the Close column: the whole column's min and max). -/
theorem feature_builder_windows (h : List (Nat × ℚ)) (hl : 30 ≤ h.length) :
    prepare_data (some h) 30 =
      .ok (mkX (closesOf h) 30, mky (closesOf h) 30, scalerOf (closesOf h), 3) ∧
    ∀ j, j < h.length - 30 →
      ((mkX (closesOf h) 30)[j]? =
          some (((scaledRows (closesOf h)).drop j).take 30) ∧
       (((scaledRows (closesOf h)).drop j).take 30).length = 30 ∧
       (∀ r ∈ ((scaledRows (closesOf h)).drop j).take 30, r.length = 3) ∧
       (mky (closesOf h) 30)[j]? =
          some (mmScale (listMin (closesOf h)) (listMax (closesOf h))
            ((closesOf h).getD (j + 30) 0))) := by
  have hclen : (closesOf h).length = h.length := by simp [closesOf]
  refine ⟨prepare_data_ok h hl, ?_⟩
  intro j hj
  refine ⟨mkX_getElem? _ _ _ (by omega), ?_, ?_, ?_⟩
  · rw [List.length_take, List.length_drop, scaledRows_length, hclen]
    exact Nat.min_eq_left (by omega)
  · intro r hr
    exact scaledRows_rows3 _ r (List.drop_subset _ _ (List.take_subset _ _ hr))
  · rw [mky_getElem? _ _ _ (by omega), scaledRows_col0 _ _ (by omega)]

/-- Witness for C7 at the concrete 31-row history `h31`. -/
theorem feature_builder_windows_witness :
    30 ≤ h31.length ∧
    (prepare_data (some h31) 30 =
      .ok (mkX (closesOf h31) 30, mky (closesOf h31) 30, scalerOf (closesOf h31), 3) ∧
    ∀ j, j < h31.length - 30 →
      ((mkX (closesOf h31) 30)[j]? =
          some (((scaledRows (closesOf h31)).drop j).take 30) ∧
       (((scaledRows (closesOf h31)).drop j).take 30).length = 30 ∧
       (∀ r ∈ ((scaledRows (closesOf h31)).drop j).take 30, r.length = 3) ∧
       (mky (closesOf h31) 30)[j]? =
          some (mmScale (listMin (closesOf h31)) (listMax (closesOf h31))
            ((closesOf h31).getD (j + 30) 0)))) :=
  ⟨by decide, feature_builder_windows h31 (by decide)⟩

/-! ## Lemmas about the RSI pipeline -/

theorem diffGo_length (prev : ℚ) (l : List ℚ) :
    (diffGo prev l).length = l.length := by
  induction l generalizing prev with
  | nil => rfl
  | cons x xs ih => simp [diffGo, ih]

theorem seriesDiff_length (close : List ℚ) :
    (seriesDiff close).length = close.length := by
  cases close with
  | nil => rfl
  | cons c rest => simp [seriesDiff, diffGo_length]

theorem rollingMeanF_length (w : Nat) (l : List F) :
    (rollingMeanF w l).length = l.length := by
  simp [rollingMeanF]

theorem getLast?_rangeMap {α : Type} (n : Nat) (f : Nat → α) (h : 0 < n) :
    ((List.range n).map f).getLast? = some (f (n - 1)) := by
  obtain ⟨m, rfl⟩ : ∃ m, n = m + 1 := ⟨n - 1, by omega⟩
  rw [List.range_succ, List.map_append, List.map_cons, List.map_nil,
    List.getLast?_concat]
  simp

theorem rollingMeanF_getLast (w : Nat) (l : List F) (h : 0 < l.length) :
    (rollingMeanF w l).getLast? = some (
      if l.length - 1 + 1 < w then F.nan
      else Fdiv (Fsum ((l.drop (l.length - 1 + 1 - w)).take w)) (F.val (w : ℚ))) := by
  unfold rollingMeanF
  rw [getLast?_rangeMap _ _ h]

theorem getLast?_map_some {α β : Type} (f : α → β) (l : List α) (a : α)
    (h : l.getLast? = some a) : (l.map f).getLast? = some (f a) := by
  induction l with
  | nil => simp at h
  | cons x xs ih =>
    cases xs with
    | nil =>
      simp only [List.getLast?_singleton, Option.some.injEq] at h
      subst h
      rfl
    | cons y ys =>
      rw [List.map_cons, List.map_cons, List.getLast?_cons_cons]
      rw [List.getLast?_cons_cons] at h
      rw [← List.map_cons]
      exact ih h

theorem getLast?_zipWith {α β γ : Type} (f : α → β → γ) (l1 : List α)
    (l2 : List β) (a : α) (b : β) (hlen : l1.length = l2.length)
    (h1 : l1.getLast? = some a) (h2 : l2.getLast? = some b) :
    (List.zipWith f l1 l2).getLast? = some (f a b) := by
  induction l1 generalizing l2 with
  | nil => simp at h1
  | cons x xs ih =>
    cases l2 with
    | nil => simp at h2
    | cons y ys =>
      cases xs with
      | nil =>
        have hys : ys = [] := by
          have := hlen
          simp only [List.length_cons, List.length_nil] at this
          exact List.eq_nil_of_length_eq_zero (by omega)
        subst hys
        simp only [List.getLast?_singleton, Option.some.injEq] at h1 h2
        subst h1
        subst h2
        rfl
      | cons x2 xs2 =>
        cases ys with
        | nil => simp at hlen
        | cons y2 ys2 =>
          rw [List.zipWith_cons_cons, List.zipWith_cons_cons,
            List.getLast?_cons_cons, ← List.zipWith_cons_cons]
          rw [List.getLast?_cons_cons] at h1 h2
          exact ih (y2 :: ys2) (by simpa using hlen) h1 h2

theorem getLast?_drop_lt {α : Type} (l : List α) (k : Nat) (h : k < l.length) :
    (l.drop k).getLast? = l.getLast? := by
  induction l generalizing k with
  | nil => simp at h
  | cons x xs ih =>
    cases k with
    | zero => rfl
    | succ m =>
      rw [List.drop_succ_cons]
      have hm : m < xs.length := by simpa using h
      rw [ih m hm]
      have hne : xs ≠ [] := by
        intro h0
        rw [h0] at hm
        simp at hm
      obtain ⟨y, ys, rfl⟩ := List.exists_cons_of_ne_nil hne
      rw [List.getLast?_cons_cons]

theorem diffGo_vals (prev : ℚ) (l : List ℚ) :
    ∀ x ∈ diffGo prev l, ∃ q, x = F.val q := by
  induction l generalizing prev with
  | nil => simp [diffGo]
  | cons z zs ih =>
    intro x hx
    simp only [diffGo, List.mem_cons] at hx
    rcases hx with rfl | hx2
    · exact ⟨_, rfl⟩
    · exact ih z x hx2

theorem seriesDiff_shape (close : List ℚ) :
    ∀ x ∈ seriesDiff close, x = F.nan ∨ ∃ q, x = F.val q := by
  cases close with
  | nil => simp [seriesDiff]
  | cons c rest =>
    intro x hx
    simp only [seriesDiff, List.mem_cons] at hx
    rcases hx with rfl | hx2
    · exact Or.inl rfl
    · exact Or.inr (diffGo_vals c rest x hx2)

theorem gainPre_nonneg (close : List ℚ) :
    ∀ x ∈ (seriesDiff close).map whereGt0, ∃ q, x = F.val q ∧ 0 ≤ q := by
  intro x hx
  obtain ⟨d, hd, rfl⟩ := List.mem_map.mp hx
  rcases seriesDiff_shape close d hd with rfl | ⟨q, rfl⟩
  · exact ⟨0, rfl, le_refl 0⟩
  · by_cases hq : 0 < q
    · refine ⟨q, ?_, le_of_lt hq⟩
      simp [whereGt0, Fgt, hq]
    · refine ⟨0, ?_, le_refl 0⟩
      simp [whereGt0, Fgt, hq]

theorem diffGo_pos_of_chain (prev : ℚ) (l : List ℚ)
    (hc : List.Chain' (· < ·) (prev :: l)) :
    ∀ x ∈ diffGo prev l, ∃ q, x = F.val q ∧ 0 < q := by
  induction l generalizing prev with
  | nil => simp [diffGo]
  | cons z zs ih =>
    intro x hx
    rw [List.chain'_cons] at hc
    simp only [diffGo, List.mem_cons] at hx
    rcases hx with rfl | hx2
    · exact ⟨z - prev, rfl, by linarith [hc.1]⟩
    · exact ih z hc.2 x hx2

theorem lossPre_zero_of_chain (close : List ℚ) (hc : List.Chain' (· < ·) close) :
    ∀ y ∈ (seriesDiff close).map (fun d => Fneg (whereLt0 d)), y = F.val 0 := by
  intro y hy
  obtain ⟨d, hd, rfl⟩ := List.mem_map.mp hy
  cases close with
  | nil => simp [seriesDiff] at hd
  | cons c rest =>
    simp only [seriesDiff, List.mem_cons] at hd
    rcases hd with rfl | hd2
    · simp [whereLt0, Flt, Fgt, Fneg]
    · obtain ⟨q, rfl, hq⟩ := diffGo_pos_of_chain c rest hc d hd2
      have hq2 : ¬ q < 0 := by linarith
      simp [whereLt0, Flt, Fgt, hq2, Fneg]

theorem Fsum_zero (l : List F) (h : ∀ x ∈ l, x = F.val 0) :
    Fsum l = F.val 0 := by
  induction l with
  | nil => rfl
  | cons x xs ih =>
    have hx := h x (List.mem_cons_self x xs)
    subst hx
    show Fadd (F.val 0) (Fsum xs) = F.val 0
    rw [ih (fun z hz => h z (List.mem_cons_of_mem _ hz))]
    simp [Fadd]

theorem Fsum_nonneg_vals (l : List F)
    (h : ∀ x ∈ l, ∃ q, x = F.val q ∧ 0 ≤ q) :
    ∃ s, Fsum l = F.val s ∧ 0 ≤ s ∧ ∀ q, F.val q ∈ l → q ≤ s := by
  induction l with
  | nil => exact ⟨0, rfl, le_refl 0, by simp⟩
  | cons x xs ih =>
    obtain ⟨a, rfl, ha⟩ := h x (List.mem_cons_self x xs)
    obtain ⟨s, hs, hs0, hbound⟩ := ih (fun z hz => h z (List.mem_cons_of_mem _ hz))
    refine ⟨a + s, ?_, by linarith, ?_⟩
    · show Fadd (F.val a) (Fsum xs) = F.val (a + s)
      rw [hs]
      rfl
    · intro q hq
      rcases List.mem_cons.mp hq with heq | hq2

      · have hqa : q = a := by
          simpa [F.val.injEq] using heq
        subst hqa
        linarith
      · have := hbound q hq2
        linarith

theorem seriesDiff_getLast_pos (close : List ℚ)
    (hc : List.Chain' (· < ·) close) (h2 : 2 ≤ close.length) :
    ∃ q, (seriesDiff close).getLast? = some (F.val q) ∧ 0 < q := by
  cases close with
  | nil => simp at h2
  | cons c rest =>
    cases rest with
    | nil => simp at h2
    | cons r rs =>
      have hsd : (seriesDiff (c :: r :: rs)).getLast? =
          (diffGo c (r :: rs)).getLast? := by
        show (F.nan :: diffGo c (r :: rs)).getLast? = _
        rw [show diffGo c (r :: rs) = F.val (r - c) :: diffGo r rs from rfl]
        rw [List.getLast?_cons_cons]
      obtain ⟨a, ha⟩ : ∃ a, (diffGo c (r :: rs)).getLast? = some a := by
        cases hgl : (diffGo c (r :: rs)).getLast? with
        | none =>
          have : diffGo c (r :: rs) = [] := List.getLast?_eq_none_iff.mp hgl
          simp [diffGo] at this
        | some a => exact ⟨a, rfl⟩
      have hmem : a ∈ diffGo c (r :: rs) := List.mem_of_mem_getLast? ha
      obtain ⟨q, rfl, hq⟩ := diffGo_pos_of_chain c (r :: rs) hc a hmem
      exact ⟨q, by rw [hsd, ha], hq⟩

theorem rsi_last_of_gain_loss (close : List ℚ) (g : ℚ) (hg : 0 < g)
    (hgain : (gainSeries close).getLast? = some (F.val g))
    (hloss : (lossSeries close).getLast? = some (F.val 0)) :
    (calculate_technical_indicators close).RSI = F.val 100 := by
  have hlen : (gainSeries close).length = (lossSeries close).length := by
    simp [gainSeries, lossSeries, rollingMeanF_length]
  have hrs : (rsSeries close).getLast? = some (Fdiv (F.val g) (F.val 0)) :=
    getLast?_zipWith Fdiv _ _ _ _ hlen hgain hloss
  have hdiv : Fdiv (F.val g) (F.val 0) = F.inf := by
    simp [Fdiv, hg]
  rw [hdiv] at hrs
  have hrsi : (rsiSeries close).getLast? =
      some (Fsub (.val 100) (Fdiv (.val 100) (Fadd (.val 1) F.inf))) :=
    getLast?_map_some _ _ _ hrs
  have hval : Fsub (F.val 100) (Fdiv (F.val 100) (Fadd (F.val 1) F.inf)) =
      F.val 100 := by decide
  rw [hval] at hrsi
  simp only [calculate_technical_indicators]
  rw [hrsi]
  rfl

/-! ## Claim theorems for RSI saturation -/

/-- Counterexample to claim C5: the constant 14-day Close series has
14-day average loss zero, but its average gain is also zero, so
`rs = 0/0` is NaN (not infinity) and the returned RSI is NaN, not 100. -/
theorem rsi_constant_series_nan :
    (lossSeries (List.replicate 14 (5 : ℚ))).getLast? = some (F.val 0) ∧
    (calculate_technical_indicators (List.replicate 14 (5 : ℚ))).RSI = F.nan ∧
    (calculate_technical_indicators (List.replicate 14 (5 : ℚ))).RSI ≠ F.val 100 :=
  ⟨by decide, by decide, by decide⟩

/-- Claim C5 (amended): over at least 14 days, if the 14-day average loss
is zero and the 14-day average gain is positive, the Indicator Calculator
returns RSI = 100 (not a division-by-zero fault); in particular every
strictly monotonically increasing Close series of at least 14 days yields
RSI = 100.  (A zero average loss alone does not suffice: with average gain
also zero the RSI is NaN, see the constant-series counterexample.) -/
theorem rsi_saturates_at_100 (close : List ℚ) (hl : 14 ≤ close.length) :
    (∀ g : ℚ, (gainSeries close).getLast? = some (F.val g) →
      (lossSeries close).getLast? = some (F.val 0) → 0 < g →
      (calculate_technical_indicators close).RSI = F.val 100) ∧
    (List.Chain' (· < ·) close →
      (calculate_technical_indicators close).RSI = F.val 100) := by
  constructor
  · intro g hgain hloss hg
    exact rsi_last_of_gain_loss close g hg hgain hloss
  · intro hc
    have hgpl : ((seriesDiff close).map whereGt0).length = close.length := by
      simp [seriesDiff_length]
    have hlpl : ((seriesDiff close).map (fun d => Fneg (whereLt0 d))).length =
        close.length := by
      simp [seriesDiff_length]
    -- the last rolling average of losses is zero
    have hloss : (lossSeries close).getLast? = some (F.val 0) := by
      unfold lossSeries
      rw [rollingMeanF_getLast _ _ (by omega)]
      rw [if_neg (by omega)]
      have hwin : ∀ x ∈ (((seriesDiff close).map (fun d => Fneg (whereLt0 d))).drop
          (((seriesDiff close).map (fun d => Fneg (whereLt0 d))).length - 1 + 1 - 14)).take 14,
          x = F.val 0 := by
        intro x hx
        exact lossPre_zero_of_chain close hc x
          (List.drop_subset _ _ (List.take_subset _ _ hx))
      rw [Fsum_zero _ hwin]
      have h14 : ((14 : Nat) : ℚ) ≠ 0 := by norm_num
      simp [Fdiv, h14]
    -- the last rolling average of gains is positive
    have hgain : ∃ g, (gainSeries close).getLast? = some (F.val g) ∧ 0 < g := by
      unfold gainSeries
      rw [rollingMeanF_getLast _ _ (by omega)]
      rw [if_neg (by omega)]
      have hWnn : ∀ x ∈ (((seriesDiff close).map whereGt0).drop
          (((seriesDiff close).map whereGt0).length - 1 + 1 - 14)).take 14,
          ∃ q, x = F.val q ∧ 0 ≤ q := by
        intro x hx
        exact gainPre_nonneg close x
          (List.drop_subset _ _ (List.take_subset _ _ hx))
      obtain ⟨s, hsum, hs0, hbound⟩ := Fsum_nonneg_vals _ hWnn
      obtain ⟨d, hd, hdpos⟩ := seriesDiff_getLast_pos close hc (by omega)
      have hglast : ((seriesDiff close).map whereGt0).getLast? =
          some (whereGt0 (F.val d)) := getLast?_map_some _ _ _ hd
      have hwd : whereGt0 (F.val d) = F.val d := by
        simp [whereGt0, Fgt, hdpos]
      rw [hwd] at hglast
      have htake : (((seriesDiff close).map whereGt0).drop
          (((seriesDiff close).map whereGt0).length - 1 + 1 - 14)).take 14 =
          ((seriesDiff close).map whereGt0).drop
            (((seriesDiff close).map whereGt0).length - 1 + 1 - 14) := by
        apply List.take_of_length_le
        rw [List.length_drop]
        omega
      have hWlast : ((((seriesDiff close).map whereGt0).drop
          (((seriesDiff close).map whereGt0).length - 1 + 1 - 14)).take 14).getLast? =
          some (F.val d) := by
        rw [htake, getLast?_drop_lt _ _ (by omega)]
        exact hglast
      have hmem := List.mem_of_mem_getLast? hWlast
      have hspos : 0 < s := lt_of_lt_of_le hdpos (hbound d hmem)
      refine ⟨s / 14, ?_, by positivity⟩
      rw [hsum]
      have h14 : ((14 : Nat) : ℚ) ≠ 0 := by norm_num
      simp [Fdiv, h14]
    obtain ⟨g, hgain2, hgpos⟩ := hgain
    exact rsi_last_of_gain_loss close g hgpos hgain2 hloss

/-- Witness for the amended C5 at the strictly increasing series `inc14`. -/
theorem rsi_saturates_at_100_witness :
    14 ≤ inc14.length ∧
    ((∀ g : ℚ, (gainSeries inc14).getLast? = some (F.val g) →
      (lossSeries inc14).getLast? = some (F.val 0) → 0 < g →
      (calculate_technical_indicators inc14).RSI = F.val 100) ∧
    (List.Chain' (· < ·) inc14 →
      (calculate_technical_indicators inc14).RSI = F.val 100)) :=
  ⟨by decide, rsi_saturates_at_100 inc14 (by decide)⟩

end StockAI
